import Mathlib

/-
Verification of the whole-program analysis driver of phc
(src/optimize/wpa/Whole_program.cpp) against its design document.

Each definition below is a shallow embedding of one function of
Whole_program.cpp; the C++ function it embeds is named in its doc comment.
Analysis-specific internals (the concrete lattices, the CFG data structure)
are abstracted as parameters, exactly as the driver code treats them:
the driver only calls into them through the WPA protocol.
-/

namespace PhcWpa

/- ---------------------------------------------------------------------
   Outer whole-program loop: Whole_program::run / analyses_have_converged
   --------------------------------------------------------------------- -/

/-- Embeds `Whole_program::analyses_have_converged` (Whole_program.cpp
191-210).  The per-analysis states are abstracted as `Nat` (only equality
matters to the driver).  The C++ returns `false` immediately when
`old_analyses.size () == 0` (the state before the first iteration, since
`initialize` saved an empty analysis list); otherwise it compares every
current analysis against the corresponding saved one. -/
def analyses_have_converged (old_analyses analyses : List Nat) : Bool :=
  if old_analyses.length = 0 then false
  else (analyses.zip old_analyses).all (fun p => p.1 == p.2)

/-- Embeds the outer loop of `Whole_program::run` (Whole_program.cpp
107-168), parametrized by `analyze`, the list of per-analysis states that
one whole-program pass computes.  For a program whose call graph has no
recursion and no cycles each pass is deterministic and recomputes from
scratch (all state is discarded by `initialize`), so `analyze` is the same
list every iteration.  Each iteration saves the previous states
(`initialize`), recomputes, and tests convergence; `fuel` counts the
remaining iterations out of 10, the result is `some i` when the loop
breaks out of iteration `i`, and `none` models the `phc_TODO` abort when
the bound of 10 is exhausted. -/
def run_go (analyze : List Nat) : Nat → List Nat → Option Nat
  | 0, _ => none
  | fuel + 1, analyses =>
    if analyses_have_converged analyses analyze then some (10 - fuel)
    else run_go analyze fuel analyze

/-- Embeds `Whole_program::run`'s outer loop from its initial state: no
previous analyses (`old_analyses` is empty on the first pass) and 10
iterations of budget. -/
def run_outer (analyze : List Nat) : Option Nat :=
  run_go analyze 10 []

theorem zip_self_all_beq (l : List Nat) :
    (l.zip l).all (fun p => p.1 == p.2) = true := by
  induction l with
  | nil => rfl
  | cons x xs ih => simp [List.zip_cons_cons, List.all_cons, ih]

/-- C1 (counterexample): with one registered analysis whose recomputed
state is identical every pass, the outer loop does NOT exit in iteration
1: the convergence test after the first iteration compares against an
empty pre-iteration snapshot and reports non-convergence, so a second
outer iteration is always triggered. -/
theorem run_outer_not_iteration_one :
    run_outer [0] ≠ some 1 ∧ analyses_have_converged [] [0] = false := by
  constructor
  · decide
  · decide

/-- C1 (amended): for any non-empty analysis list recomputed identically
each pass (the acyclic, recursion-free case), the whole-program driver
converges at the end of outer iteration 2, not 1: the convergence test
after the first iteration always reports non-convergence because the
saved pre-iteration snapshot is empty, and the test after the second
iteration finds every analysis equal to its snapshot and exits. -/
theorem run_outer_converges_iteration_two (a : List Nat) (h : a ≠ []) :
    run_outer a = some 2 := by
  have h0 : analyses_have_converged [] a = false := by
    simp [analyses_have_converged]
  have h1 : analyses_have_converged a a = true := by
    cases a with
    | nil => exact absurd rfl h
    | cons x xs => simp [analyses_have_converged, zip_self_all_beq]
  simp only [run_outer, run_go, h0, h1, if_false, if_true, Bool.false_eq_true]

/-- C1 (witness): the amended convergence bound evaluated on a concrete
one-analysis state. -/
theorem run_outer_converges_iteration_two_witness : run_outer [5] = some 2 :=
  run_outer_converges_iteration_two [5] (by decide)

/- ---------------------------------------------------------------------
   The type-category consistency check of Whole_program::assign_by_copy
   --------------------------------------------------------------------- -/

/-- The types of the analysed language's type lattice, as partitioned by
`Type_inference::get_scalar_types / get_array_types / get_object_types`
into scalars, arrays and objects. -/
inductive PhcType
  | ty_bool
  | ty_int
  | ty_real
  | ty_string
  | ty_null
  | ty_resource
  | ty_array
  | ty_obj (class_name : String)
deriving DecidableEq

/-- Embeds the internal consistency assertion of
`Whole_program::assign_by_copy` (Whole_program.cpp 997):
`assert (!scalars.empty() ^ !array.empty() ^ !objects.empty())`.
`scalars`, `array`, `objects` are the three partitions of the types of
one storage-node value; the C++ `^` is bitwise xor on the bool operands,
so the result is `true` (assertion passes, no invariant violation) iff an
ODD number of the three categories is non-empty. -/
def assign_by_copy_invariant_check (scalars array objects : List PhcType) : Bool :=
  Bool.xor (Bool.xor (!scalars.isEmpty) (!array.isEmpty)) (!objects.isEmpty)

/-- C2: the assertion in `assign_by_copy` is an odd-parity test, not a
more-than-one-category test.  At a storage-node value that is
simultaneously scalar, array and object (all three partitions non-empty)
the xor evaluates to `true`, so the assertion PASSES and no invariant
violation is raised — contradicting the documented invariant that such a
value must fail the check.  With exactly two categories non-empty, or
none, the assertion does fail. -/
theorem assign_by_copy_check_passes_on_triple_category :
    assign_by_copy_invariant_check [PhcType.ty_int] [PhcType.ty_array]
      [PhcType.ty_obj "C"] = true
    ∧ assign_by_copy_invariant_check [PhcType.ty_int] [PhcType.ty_array] [] = false
    ∧ assign_by_copy_invariant_check [] [] [] = false := by
  exact ⟨rfl, rfl, rfl⟩

/- ---------------------------------------------------------------------
   Branch successors: Whole_program::get_branch_successors
   --------------------------------------------------------------------- -/

/-- Embeds `Whole_program::get_branch_successors` (Whole_program.cpp
301-315).  `branch_known_true` / `branch_known_false` are the results of
`ccp->branch_known_true` / `ccp->branch_known_false` for the branch's
condition; `false_edge` / `true_edge` are the block's two successor
edges.  The C++ pushes the false successor unless the condition is proven
true, then the true successor unless the condition is proven false. -/
def get_branch_successors (branch_known_true branch_known_false : Bool)
    (false_edge true_edge : Nat) : List Nat :=
  (if !branch_known_true then [false_edge] else []) ++
  (if !branch_known_false then [true_edge] else [])

/-- C7: exactly the feasible branch edges are pushed: a condition proven
true by constant propagation skips the false edge, a condition proven
false skips the true edge, and a genuinely unknown condition pushes both
edges. -/
theorem branch_successors_exactly_feasible (f t : Nat) :
    get_branch_successors true false f t = [t]
    ∧ get_branch_successors false true f t = [f]
    ∧ get_branch_successors false false f t = [f, t] := by
  exact ⟨rfl, rfl, rfl⟩

/- ---------------------------------------------------------------------
   Paths and index nodes
   --------------------------------------------------------------------- -/

/-- A resolved symbolic memory location: the pair of a storage-region
name and a field-or-element name (phc's `Index_node`). -/
structure IndexNode where
  storage : String
  index : String
deriving DecidableEq

/-- A source-level access path `P (storage-scope, name)` as built by the
`P` macro in Whole_program.cpp: a storage region indexed by a name. -/
structure AccessPath where
  base : String
  field : String
deriving DecidableEq

/-- The name of the synthetic return-value slot (phc's `RETNAME`
constant, declared outside this translation unit; its exact spelling is
irrelevant to the properties proved here). -/
def RETNAME : String := "__RETNAME__"

/-- The wildcard index name denoting "any index" (phc's `UNKNOWN`
constant, declared outside this translation unit). -/
def UNKNOWN_INDEX : String := "*"

/- ---------------------------------------------------------------------
   String values of a dynamic index: Whole_program::get_string_values
   --------------------------------------------------------------------- -/

/-- A cell of the constant-propagation lattice as consumed by
`Whole_program::get_string_values`: `cell_top` (not yet computed),
`cell_bottom` (proven unknown/conflicting), or a literal cell carrying
the literal's string rendering (`get_value_as_string`). -/
inductive LatticeCell
  | cell_top
  | cell_bottom
  | literal_cell (rendered : String)
deriving DecidableEq

/-- Embeds `Whole_program::get_string_values` (Whole_program.cpp
1053-1067).  `ccp_value` abstracts `ccp->get_value (bb, index->name ())`.
The C++ returns a one-element list in every case: `""` for TOP, the
wildcard `UNKNOWN` for BOTTOM, and the literal's string rendering
otherwise. -/
def get_string_values (ccp_value : Nat → IndexNode → LatticeCell)
    (bb : Nat) (index : IndexNode) : List String :=
  match ccp_value bb index with
  | LatticeCell.cell_top => [""]
  | LatticeCell.cell_bottom => [UNKNOWN_INDEX]
  | LatticeCell.literal_cell s => [s]

/-- C10: for every basic block and index node, `get_string_values`
returns exactly one candidate string — the empty string when the
constant-propagation value is TOP, the wildcard unknown name when it is
BOTTOM, and the literal's string rendering otherwise; it never returns
several candidates or a null result. -/
theorem string_values_exactly_one (ccp_value : Nat → IndexNode → LatticeCell)
    (bb : Nat) (index : IndexNode) :
    (get_string_values ccp_value bb index).length = 1
    ∧ (ccp_value bb index = LatticeCell.cell_top →
        get_string_values ccp_value bb index = [""])
    ∧ (ccp_value bb index = LatticeCell.cell_bottom →
        get_string_values ccp_value bb index = [UNKNOWN_INDEX])
    ∧ (∀ s : String, ccp_value bb index = LatticeCell.literal_cell s →
        get_string_values ccp_value bb index = [s]) := by
  refine ⟨?_, ?_, ?_, ?_⟩
  · unfold get_string_values
    cases ccp_value bb index <;> rfl
  · intro h
    unfold get_string_values
    rw [h]
  · intro h
    unfold get_string_values
    rw [h]
  · intro s h
    unfold get_string_values
    rw [h]

/-- C10 (witness): evaluated at a concrete constant-propagation state
whose value at the queried node is BOTTOM. -/
theorem string_values_exactly_one_witness :
    get_string_values (fun _ _ => LatticeCell.cell_bottom) 0 ⟨"x", "0"⟩
      = [UNKNOWN_INDEX] :=
  (string_values_exactly_one (fun _ _ => LatticeCell.cell_bottom) 0
    ⟨"x", "0"⟩).2.2.1 rfl

/- ---------------------------------------------------------------------
   Modelled built-in methods: Whole_program::apply_modelled_function
   --------------------------------------------------------------------- -/

/-- The effect one entry of the modelling table applies to the synthetic
return slot: either `assign_typed` with a set of type names or
`assign_scalar` with an integer literal. -/
inductive ModelAction
  | assign_typed (types : List String)
  | assign_scalar_int (value : Int)
deriving DecidableEq

/-- Embeds `Whole_program::apply_modelled_function` (Whole_program.cpp
437-472).  `st` maps a block to its storage-scope name, so
`⟨st bb, RETNAME⟩` is the path `P (ST(bb), new VARIABLE_NAME (RETNAME))`.
The result is the assignment applied to the synthetic return slot, or
`none` for the final `phc_TODO ()` — the unimplemented-case abort for a
body-less method whose name is not in the table. -/
def apply_modelled_function (st : Nat → String) (bb : Nat)
    (name : String) : Option (AccessPath × ModelAction) :=
  let ret_name : AccessPath := ⟨st bb, RETNAME⟩
  if name = "strlen" then some (ret_name, ModelAction.assign_typed ["int"])
  else if name = "dechex" then some (ret_name, ModelAction.assign_typed ["string"])
  else if name = "print" then some (ret_name, ModelAction.assign_scalar_int 1)
  else if name = "is_array" then some (ret_name, ModelAction.assign_typed ["bool"])
  else if name = "is_object" then some (ret_name, ModelAction.assign_typed ["bool"])
  else if name = "trigger_error" then some (ret_name, ModelAction.assign_typed ["bool"])
  else none

/-- C9: a body-less method is modelled by a fixed table keyed by the
method name, each entry assigning a literal or a type to the synthetic
return slot (`strlen` maps to type `int`, `print` to the integer literal
1), and any name outside the six-entry table triggers the
unimplemented-case failure (`phc_TODO`) instead of a silent
approximation. -/
theorem modelled_function_table (st : Nat → String) (bb : Nat) :
    apply_modelled_function st bb "strlen"
      = some (⟨st bb, RETNAME⟩, ModelAction.assign_typed ["int"])
    ∧ apply_modelled_function st bb "print"
      = some (⟨st bb, RETNAME⟩, ModelAction.assign_scalar_int 1)
    ∧ ∀ name : String,
        name ∉ (["strlen", "dechex", "print", "is_array", "is_object",
                 "trigger_error"] : List String) →
        apply_modelled_function st bb name = none := by
  refine ⟨rfl, rfl, ?_⟩
  intro name h
  simp only [List.mem_cons, List.not_mem_nil, or_false, not_or] at h
  obtain ⟨h1, h2, h3, h4, h5, h6⟩ := h
  simp [apply_modelled_function, h1, h2, h3, h4, h5, h6]

/-- C9 (witness): a concrete name outside the modelling table aborts as
unimplemented. -/
theorem modelled_function_table_witness :
    apply_modelled_function (fun _ => "scope") 3 "sprintf" = none :=
  (modelled_function_table (fun _ => "scope") 3).2.2 "sprintf" (by decide)

/- ---------------------------------------------------------------------
   Predecessor-state pull: Whole_program::pull_results
   --------------------------------------------------------------------- -/

/-- A predecessor edge of a block, as `pull_results` sees it: its
`is_executable` flag and the predecessor source block's OUT state (the
state the analysis folds in via `pull_first_pred` / `pull_pred`).  The
OUT-state type `σ` is abstract. -/
structure PredEdge (σ : Type) where
  is_executable : Bool
  source_out : σ
deriving DecidableEq

/-- The predecessor fold inside `Whole_program::pull_results`
(Whole_program.cpp 574-601) for one analysis: skip non-executable edges;
the first executable edge is folded with `pull_first_pred` (`fp`), each
later executable edge with `pull_pred` (`p`).  `acc` is the analysis's
IN-state accumulator (seeded by `pull_init`), `first` the C++ `first`
flag. -/
def pull_go {i s : Type} (fp p : i → s → i) :
    i → Bool → List (PredEdge s) → i
  | acc, _, [] => acc
  | acc, first, e :: rest =>
    if e.is_executable = false then pull_go fp p acc first rest
    else if first then pull_go fp p (fp acc e.source_out) false rest
    else pull_go fp p (p acc e.source_out) false rest

/-- Embeds `Whole_program::pull_results` for one analysis: `init` is the
state produced by `pull_init`, `fp`/`p` are `pull_first_pred`/`pull_pred`,
`fin` is `pull_finish`, and `preds` the block's predecessor edges in
order. -/
def pull_results {i s : Type} (init : i) (fp p : i → s → i) (fin : i → i)
    (preds : List (PredEdge s)) : i :=
  fin (pull_go fp p init true preds)

/-- The specification's wording of the same computation: the lattice join
over exactly a list of OUT states — the first state seeds via
`pull_first_pred`, each later one merges via `pull_pred`, and
`pull_finish` closes (an empty list leaves the initialized state). -/
def spec_join_over_outs {i s : Type} (init : i) (fp p : i → s → i)
    (fin : i → i) : List s → i
  | [] => fin init
  | x :: xs => fin (List.foldl p (fp init x) xs)

theorem pull_go_false_eq {i s : Type} (fp p : i → s → i)
    (preds : List (PredEdge s)) : ∀ acc : i,
    pull_go fp p acc false preds =
      List.foldl p acc
        ((preds.filter (fun e => e.is_executable)).map (fun e => e.source_out)) := by
  induction preds with
  | nil => intro acc; rfl
  | cons e rest ih =>
    intro acc
    cases he : e.is_executable
    · simp [pull_go, he, ih]
    · simp [pull_go, he, ih]

theorem pull_go_true_eq {i s : Type} (fp p : i → s → i) (init : i)
    (preds : List (PredEdge s)) :
    pull_go fp p init true preds =
      (match (preds.filter (fun e => e.is_executable)).map (fun e => e.source_out) with
       | [] => init
       | x :: xs => List.foldl p (fp init x) xs) := by
  induction preds with
  | nil => rfl
  | cons e rest ih =>
    cases he : e.is_executable
    · simp only [pull_go, he]
      rw [ih]
      simp [he]
    · simp only [pull_go, he]
      simp only [Bool.true_eq_false, if_false, if_true]
      rw [pull_go_false_eq]
      simp [he]

/-- C4: a block's IN state computed by the pull phase is the join over
exactly the OUT states of the currently-executable predecessor edges —
the analysis is initialized, the first executable predecessor seeds the
state, each subsequent executable predecessor is merged — and
non-executable predecessors contribute nothing: any two predecessor
lists with the same executable edges yield the same IN state, so removing
a non-executable predecessor can never change it. -/
theorem pull_results_join_over_executable {i s : Type} (init : i)
    (fp p : i → s → i) (fin : i → i) (preds : List (PredEdge s)) :
    pull_results init fp p fin preds =
      spec_join_over_outs init fp p fin
        ((preds.filter (fun e => e.is_executable)).map (fun e => e.source_out))
    ∧ pull_results init fp p fin preds =
        pull_results init fp p fin (preds.filter (fun e => e.is_executable))
    ∧ ∀ preds2 : List (PredEdge s),
        preds.filter (fun e => e.is_executable)
          = preds2.filter (fun e => e.is_executable) →
        pull_results init fp p fin preds = pull_results init fp p fin preds2 := by
  have key : ∀ ps : List (PredEdge s),
      pull_results init fp p fin ps =
        spec_join_over_outs init fp p fin
          ((ps.filter (fun e => e.is_executable)).map (fun e => e.source_out)) := by
    intro ps
    unfold pull_results
    rw [pull_go_true_eq]
    cases hm : (ps.filter (fun e => e.is_executable)).map (fun e => e.source_out) with
    | nil => rfl
    | cons x xs => rfl
  refine ⟨key preds, ?_, ?_⟩
  · rw [key preds, key (preds.filter (fun e => e.is_executable))]
    rw [List.filter_filter]
    simp
  · intro preds2 h
    rw [key preds, key preds2, h]

/-- C4 (witness): removing a concrete non-executable predecessor from a
concrete predecessor list leaves the computed IN state unchanged. -/
theorem pull_results_join_over_executable_witness :
    pull_results (0 : Nat) (fun _ v => v) (fun a v => a + v) (fun a => a)
      [⟨false, 7⟩, ⟨true, 3⟩, ⟨true, 4⟩]
    = pull_results (0 : Nat) (fun _ v => v) (fun a v => a + v) (fun a => a)
      [⟨true, 3⟩, ⟨true, 4⟩] :=
  (pull_results_join_over_executable 0 (fun _ v => v) (fun a v => a + v)
    (fun a => a) [⟨false, 7⟩, ⟨true, 3⟩, ⟨true, 4⟩]).2.2
    [⟨true, 3⟩, ⟨true, 4⟩] (by decide)

/- ---------------------------------------------------------------------
   Intraprocedural worklist: Whole_program::analyse_function
   --------------------------------------------------------------------- -/

/-- The state of the worklist loop of `Whole_program::analyse_function`
(Whole_program.cpp 243-299): the `is_executable` flag of every edge
(edges named by `Nat` ids), the CFG worklist of edge ids (`cfg_wl`), and
the per-block states of all analyses, abstracted as `b`. -/
structure AnalyserState (b : Type) where
  exec : Nat → Bool
  wl : List Nat
  blocks : b

/-- The initial state of `analyse_function`: every edge reset to
non-executable and the worklist seeded with the entry edge
(`new Edge_list (cfg->get_entry_edge ())`;
`foreach (Edge* e, ...) e->is_executable = false`). -/
def wl_init {b : Type} (entry_edge : Nat) (blocks : b) : AnalyserState b :=
  ⟨fun _ => false, [entry_edge], blocks⟩

/-- One iteration of the worklist loop of `analyse_function`:
pop the front edge `e`; set `changed` if the edge was not yet executable
("Always pass through at least once"); mark the edge executable; analyse
the target block (`analyse_block`, abstracted as `ab`, returning the new
analysis states and each analysis's `solution_changed` flag, whose
disjunction `analyse_block` returns); if changed, push the target's
successor edges (`succs`, computed from the post-analysis states — for a
branch these are `get_branch_successors`, for an exit block none).
Returns `none` when the worklist is empty (loop exit). -/
def wl_step {b : Type} (tgt : Nat → Nat) (ab : b → Nat → b × List Bool)
    (succs : b → Nat → List Nat) (s : AnalyserState b) :
    Option (AnalyserState b) :=
  match s.wl with
  | [] => none
  | e :: rest =>
    let newly := !(s.exec e)
    let ex2 := fun j => if j = e then true else s.exec j
    let res := ab s.blocks (tgt e)
    let changed := newly || res.2.any (fun x => x)
    some ⟨ex2, if changed then rest ++ succs res.1 (tgt e) else rest, res.1⟩

/-- Runs `n` iterations of the worklist loop (stopping early when the
worklist drains). -/
def wl_run {b : Type} (tgt : Nat → Nat) (ab : b → Nat → b × List Bool)
    (succs : b → Nat → List Nat) : Nat → AnalyserState b → AnalyserState b
  | 0, s => s
  | n + 1, s =>
    match wl_step tgt ab succs s with
    | none => s
    | some s2 => wl_run tgt ab succs n s2

theorem wl_step_exec_mono {b : Type} (tgt : Nat → Nat)
    (ab : b → Nat → b × List Bool) (succs : b → Nat → List Nat)
    (s s2 : AnalyserState b) (h : wl_step tgt ab succs s = some s2)
    (j : Nat) (hj : s.exec j = true) : s2.exec j = true := by
  cases hw : s.wl with
  | nil => simp [wl_step, hw] at h
  | cons e rest =>
    simp only [wl_step, hw, Option.some.injEq] at h
    subst h
    show (if j = e then true else s.exec j) = true
    by_cases hje : j = e
    · simp [hje]
    · simp [hje, hj]

/-- C5: edge executability is monotonic within one function analysis:
all edges are reset to non-executable in the initial state, and once an
edge's flag is true no number of further worklist iterations ever clears
it — each step only sets the popped edge's flag and leaves every other
flag unchanged. -/
theorem edge_executability_monotone {b : Type} (tgt : Nat → Nat)
    (ab : b → Nat → b × List Bool) (succs : b → Nat → List Nat) :
    (∀ (entry_edge : Nat) (blocks : b) (j : Nat),
        (wl_init entry_edge blocks).exec j = false)
    ∧ (∀ (n : Nat) (s : AnalyserState b) (j : Nat), s.exec j = true →
        (wl_run tgt ab succs n s).exec j = true) := by
  constructor
  · intro entry_edge blocks j
    rfl
  · intro n
    induction n with
    | zero => intro s j hj; exact hj
    | succ n ih =>
      intro s j hj
      cases hstep : wl_step tgt ab succs s with
      | none => simpa [wl_run, hstep] using hj
      | some s2 =>
        simp only [wl_run, hstep]
        exact ih s2 j (wl_step_exec_mono tgt ab succs s s2 hstep j hj)

/-- C5 (witness): a concretely executable edge stays executable across
three concrete worklist iterations. -/
theorem edge_executability_monotone_witness :
    (wl_run (fun e => e) (fun (blocks : Nat) _ => (blocks, []))
      (fun _ _ => []) 3 ⟨fun j => j == 2, [0, 1], 0⟩).exec 2 = true :=
  (edge_executability_monotone (fun e => e)
    (fun (blocks : Nat) _ => (blocks, [])) (fun _ _ => [])).2 3
    ⟨fun j => j == 2, [0, 1], 0⟩ 2 rfl

/-- C6 (counterexample): on the first traversal of an edge the code
pushes the target's successors even though NO analysis reported a changed
OUT state: with every `solution_changed` flag false and the popped edge
not yet executable, the step still appends the successor edge 2 to the
worklist, refuting "pushed if and only if some analysis reported that its
OUT state changed". -/
theorem successors_pushed_without_change :
    (wl_step (fun _ => 1) (fun (blocks : Nat) _ => (blocks, [false, false]))
        (fun _ _ => [2]) ⟨fun _ => false, [0], 0⟩).map AnalyserState.wl
      = some [2]
    ∧ ([false, false] : List Bool).any (fun x => x) = false := by
  exact ⟨rfl, rfl⟩

/-- C6 (amended): after a popped edge's target block is analysed, the
target's successor edges are pushed onto the worklist if and only if the
popped edge was not yet executable (the forced first pass) or some
analysis reported that its OUT state at the target changed; otherwise the
worklist is just the remaining edges. -/
theorem successors_pushed_iff_newly_or_changed {b : Type} (tgt : Nat → Nat)
    (ab : b → Nat → b × List Bool) (succs : b → Nat → List Nat)
    (s : AnalyserState b) (e : Nat) (rest : List Nat) (h : s.wl = e :: rest) :
    (wl_step tgt ab succs s).map AnalyserState.wl =
      some (if !(s.exec e) || ((ab s.blocks (tgt e)).2.any (fun x => x))
            then rest ++ succs (ab s.blocks (tgt e)).1 (tgt e)
            else rest) := by
  simp [wl_step, h]

/-- C6 (witness): the amended push rule evaluated at a concrete state
whose popped edge is already executable and whose single analysis reports
a change. -/
theorem successors_pushed_iff_newly_or_changed_witness :
    (wl_step (fun _ => 1) (fun (blocks : Nat) _ => (blocks, [true]))
        (fun _ _ => [5]) ⟨fun _ => true, [0], 0⟩).map AnalyserState.wl
      = some [5] := by
  have h := successors_pushed_iff_newly_or_changed (fun _ => 1)
    (fun (blocks : Nat) _ => (blocks, [true])) (fun _ _ => [5])
    ⟨fun _ => true, [0], 0⟩ 0 [] rfl
  simpa using h

/- ---------------------------------------------------------------------
   Kill certainty: is_must and Whole_program::kill_value
   --------------------------------------------------------------------- -/

/-- phc's `certainty` enumeration. -/
inductive Certainty
  | DEFINITE
  | POSSIBLE
deriving DecidableEq

/-- Embeds `is_must` (Whole_program.cpp 786-794): asserts the resolved
index-node list is non-empty (`none` models the `assert` aborting) and
reports whether it has exactly one element. -/
def is_must (indices : List IndexNode) : Option Bool :=
  if indices.isEmpty then none
  else some (indices.length == 1)

/-- Embeds `Whole_program::kill_value` (Whole_program.cpp 796-822).
`get_references` abstracts `aliasing->get_references (bb, lhs, DEFINITE)`
— the DEFINITE-certainty references of a node.  The result pairs the
returned certainty with the list of index nodes on which every analysis's
`kill_value` primitive is invoked, in invocation order: nothing for a
POSSIBLE kill; the single node's definite references then the node itself
for a DEFINITE kill. -/
def kill_value (lhss : List IndexNode)
    (get_references : IndexNode → List IndexNode) :
    Option (Certainty × List IndexNode) :=
  match is_must lhss with
  | none => none
  | some false => some (Certainty.POSSIBLE, [])
  | some true =>
    match lhss with
    | [] => none
    | lhs :: _ => some (Certainty.DEFINITE, get_references lhs ++ [lhs])

/-- C3: for a non-empty resolved index-node list, the kill certainty is
DEFINITE iff the list has exactly one element; a DEFINITE kill kills
exactly the single node's DEFINITE-certainty references and the node
itself, and a POSSIBLE kill (more than one node resolved) kills nothing —
no analysis's `kill_value` primitive is invoked. -/
theorem kill_value_definite_iff_single (lhs : IndexNode)
    (rest : List IndexNode) (get_references : IndexNode → List IndexNode) :
    ((kill_value (lhs :: rest) get_references).map Prod.fst
        = some Certainty.DEFINITE ↔ (lhs :: rest).length = 1)
    ∧ (rest = [] → kill_value (lhs :: rest) get_references
        = some (Certainty.DEFINITE, get_references lhs ++ [lhs]))
    ∧ (rest ≠ [] → kill_value (lhs :: rest) get_references
        = some (Certainty.POSSIBLE, [])) := by
  cases rest with
  | nil =>
    refine ⟨?_, ?_, ?_⟩
    · simp [kill_value, is_must]
    · intro _
      simp [kill_value, is_must]
    · intro h
      exact absurd rfl h
  | cons r rs =>
    refine ⟨?_, ?_, ?_⟩
    · simp [kill_value, is_must]
    · intro h
      exact absurd h (by simp)
    · intro _
      simp [kill_value, is_must]

/-- C3 (witness): a two-element resolved list yields a POSSIBLE kill that
kills nothing, evaluated concretely. -/
theorem kill_value_definite_iff_single_witness :
    kill_value [⟨"x", "a"⟩, ⟨"x", "b"⟩] (fun n => [n])
      = some (Certainty.POSSIBLE, []) :=
  (kill_value_definite_iff_single ⟨"x", "a"⟩ [⟨"x", "b"⟩]
    (fun n => [n])).2.2 (by decide)

/- ---------------------------------------------------------------------
   Backward bind: Whole_program::backward_bind
   --------------------------------------------------------------------- -/

/-- One observable action of `Whole_program::backward_bind`, in order:
an `assign_by_ref` or `assign_by_copy` evaluated at a given block, or one
analysis's `backward_bind` hook. -/
inductive BindEvent
  | ev_assign_by_ref (bb : Nat) (lhs rhs : AccessPath)
  | ev_assign_by_copy (bb : Nat) (lhs rhs : AccessPath)
  | ev_hook (analysis : String)
deriving DecidableEq

/-- Embeds `Whole_program::backward_bind` (Whole_program.cpp 737-778) as
the trace of actions it performs.  `return_by_ref` is
`info->return_by_ref ()`, `analyses` the registered analyses (in
registration order), `st` maps a block to its storage-scope name (phc's
`ST`), `caller`/`exit` the caller block and the callee's exit block, and
`lhs` the call's target variable, if any.  With a target variable the C++
assigns `P (ST (caller), lhs)` from `P (ST (exit), RETNAME)` — by
reference when the callee declares reference return, by copy otherwise —
with the assignment evaluated at the `exit` block; afterwards it invokes
every analysis's `backward_bind` hook.  Without a target variable only
the hooks run. -/
def backward_bind (return_by_ref : Bool) (analyses : List String)
    (st : Nat → String) (caller exit_bb : Nat) (lhs : Option String) :
    List BindEvent :=
  (match lhs with
   | some l =>
     if return_by_ref then
       [BindEvent.ev_assign_by_ref exit_bb ⟨st caller, l⟩ ⟨st exit_bb, RETNAME⟩]
     else
       [BindEvent.ev_assign_by_copy exit_bb ⟨st caller, l⟩ ⟨st exit_bb, RETNAME⟩]
   | none => []) ++ analyses.map BindEvent.ev_hook

/-- C8: with a target variable, backward bind performs exactly one
assignment — of the caller-scoped target from the callee's exit-scoped
return-value slot, by reference iff the callee declares reference return,
evaluated at the callee's exit block — and only after it does every
analysis's `backward_bind` hook run; without a target variable no
assignment happens but every hook still runs. -/
theorem backward_bind_target_assignment (return_by_ref : Bool)
    (analyses : List String) (st : Nat → String) (caller exit_bb : Nat)
    (l : String) :
    backward_bind return_by_ref analyses st caller exit_bb (some l) =
      (if return_by_ref then
        BindEvent.ev_assign_by_ref exit_bb ⟨st caller, l⟩ ⟨st exit_bb, RETNAME⟩
       else
        BindEvent.ev_assign_by_copy exit_bb ⟨st caller, l⟩ ⟨st exit_bb, RETNAME⟩)
        :: analyses.map BindEvent.ev_hook
    ∧ backward_bind return_by_ref analyses st caller exit_bb none
        = analyses.map BindEvent.ev_hook := by
  constructor
  · cases return_by_ref <;> rfl
  · rfl

end PhcWpa
